import Mathlib

/-!
Verification of the visual-change-detection diff pipeline of
src/backend/app.py against its specification.

Modelling conventions: an image is a pair of dimensions together with a
total pixel map from row and column indices to BGR channel triples of
naturals; change masks are total maps from row and column to a cell value.
The OpenCV and Python operations used by the pipeline are embedded over
the rationals where the library computes in floating point, with rounding
to nearest and ties to even, as in Python round and OpenCV cvRound.  No
statement below depends on an exact floating-point tie.
-/

namespace VCD

/-- A BGR pixel: blue, green and red channel intensities. -/
abbrev Pix := ℕ × ℕ × ℕ

/-- An image: dimensions plus a total pixel map (row, column to BGR). -/
structure Img where
  height : ℕ
  width : ℕ
  pix : ℕ → ℕ → Pix

/-- Absolute difference on naturals, as cv2.absdiff computes per channel. -/
def absd (x y : ℕ) : ℕ := max x y - min x y

/-- Channel-wise absolute difference of two pixels (cv2.absdiff, app.py line 81). -/
def absdiffPix (p q : Pix) : Pix :=
  (absd p.1 q.1, absd p.2.1 q.2.1, absd p.2.2 q.2.2)

/-- OpenCV BGR-to-gray conversion on 8-bit data: fixed-point luma weights
1868, 9617, 4899 over 2 to the 14 with rounding by adding 8192
(cv2.cvtColor with COLOR_BGR2GRAY, app.py line 82). -/
def grayOf (p : Pix) : ℕ :=
  (1868 * p.1 + 9617 * p.2.1 + 4899 * p.2.2 + 8192) / 16384

/-- The thresholded difference mask (app.py lines 81-85): a cell is 255 when
the gray magnitude of the channel-wise absolute difference strictly exceeds
the threshold, else 0 (cv2.threshold with THRESH_BINARY). -/
def diffMask (before after : Img) (t : ℕ) : ℕ → ℕ → ℕ :=
  fun i j =>
    if t < grayOf (absdiffPix (before.pix i j) (after.pix i j)) then 255 else 0

/-- Indices of the 3-by-3 structuring element along one axis that fall inside
the image: the index itself plus its in-bounds neighbours. -/
def nbhd (n i : ℕ) : List ℕ :=
  (if 0 < i then [i - 1] else []) ++ [i] ++ (if i + 1 < n then [i + 1] else [])

/-- The in-bounds 3-by-3 neighbourhood values of a mask around a cell. -/
def cellList (h w : ℕ) (m : ℕ → ℕ → ℕ) (i j : ℕ) : List ℕ :=
  ((nbhd h i).map (fun a => (nbhd w j).map (fun b => m a b))).flatten

/-- Morphological erosion with a 3-by-3 all-ones kernel (cv2.erode semantics:
minimum over the in-bounds neighbourhood; the constant border of the default
border value never contributes to the minimum). -/
def erode (h w : ℕ) (m : ℕ → ℕ → ℕ) : ℕ → ℕ → ℕ :=
  fun i j => (cellList h w m i j).foldr min 255

/-- Morphological dilation with a 3-by-3 all-ones kernel (cv2.dilate
semantics: maximum over the in-bounds neighbourhood). -/
def dilate (h w : ℕ) (m : ℕ → ℕ → ℕ) : ℕ → ℕ → ℕ :=
  fun i j => (cellList h w m i j).foldr max 0

/-- Morphological opening, erosion then dilation, one iteration with a
3-by-3 all-ones kernel (cv2.morphologyEx with MORPH_OPEN, app.py lines 88-89). -/
def opening (h w : ℕ) (m : ℕ → ℕ → ℕ) : ℕ → ℕ → ℕ :=
  dilate h w (erode h w m)

/-- A normalized ignore rectangle with fields in [0,1] (app.py line 71). -/
structure Rect where
  x : ℚ
  y : ℚ
  w : ℚ
  h : ℚ

/-- Rounding to the nearest integer with ties to even, the behaviour of
Python round on a float. -/
def pyRound (q : ℚ) : ℤ :=
  if q - ⌊q⌋ = 1 / 2 then (if ⌊q⌋ % 2 = 0 then ⌊q⌋ else ⌊q⌋ + 1) else round q

/-- Left pixel column of an ignore rectangle (app.py line 72):
max(0, min(w - 1, round(x times w))). -/
def rx1 (w : ℕ) (r : Rect) : ℤ := max 0 (min ((w : ℤ) - 1) (pyRound (r.x * w)))

/-- Top pixel row of an ignore rectangle (app.py line 73). -/
def ry1 (h : ℕ) (r : Rect) : ℤ := max 0 (min ((h : ℤ) - 1) (pyRound (r.y * h)))

/-- Right pixel column, exclusive, of an ignore rectangle (app.py line 74):
max(0, min(w, round((x + rw) times w))). -/
def rx2 (w : ℕ) (r : Rect) : ℤ :=
  max 0 (min (w : ℤ) (pyRound ((r.x + r.w) * w)))

/-- Bottom pixel row, exclusive, of an ignore rectangle (app.py line 75). -/
def ry2 (h : ℕ) (r : Rect) : ℤ :=
  max 0 (min (h : ℤ) (pyRound ((r.y + r.h) * h)))

/-- A cell lies in the clamped pixel rectangle of an ignore region. -/
def covers (h w : ℕ) (r : Rect) (i j : ℕ) : Prop :=
  ry1 h r ≤ (i : ℤ) ∧ (i : ℤ) < ry2 h r ∧ rx1 w r ≤ (j : ℤ) ∧ (j : ℤ) < rx2 w r

instance (h w : ℕ) (r : Rect) (i j : ℕ) : Decidable (covers h w r i j) := by
  unfold covers; infer_instance

/-- One iteration of the loop body of _apply_ignore_rects (app.py lines
70-77): if the clamped rectangle is nondegenerate, set every cell inside it
to 0, else leave the mask alone. -/
def applyRect (h w : ℕ) (r : Rect) (m : ℕ → ℕ → ℕ) : ℕ → ℕ → ℕ :=
  if ry1 h r < ry2 h r ∧ rx1 w r < rx2 w r then
    fun i j => if covers h w r i j then 0 else m i j
  else m

/-- _apply_ignore_rects (app.py lines 66-77), as a fold over the region list
in order; each region zeroes its clamped rectangle in the mask. -/
def applyIgnoreRects (h w : ℕ) (rects : List Rect) (m : ℕ → ℕ → ℕ) : ℕ → ℕ → ℕ :=
  rects.foldl (fun acc r => applyRect h w r acc) m

/-- The mask produced by _compute_diff just before scoring and overlay
(app.py lines 80-92): thresholded absolute difference, opened, then with the
ignore regions applied. -/
def pipelineMask (before after : Img) (t : ℕ) (rects : List Rect) : ℕ → ℕ → ℕ :=
  applyIgnoreRects before.height before.width rects
    (opening before.height before.width (diffMask before after t))

/-- Python exception kinds the scoring expression can surface. -/
inductive PyErr where
  | zeroDivisionError
  | invalidState
deriving DecidableEq

/-- cv2.countNonZero over the mask bounds (app.py line 94). -/
def countNonZero (h w : ℕ) (m : ℕ → ℕ → ℕ) : ℕ :=
  ∑ i in Finset.range h, ∑ j in Finset.range w, if m i j = 0 then 0 else 1

/-- The change-percentage computation of app.py lines 94-96:
(changed_pixels / total_pixels) * 100.0.  Python division by a zero total
raises ZeroDivisionError, modelled as the error branch. -/
def scoreE (h w : ℕ) (m : ℕ → ℕ → ℕ) : Except PyErr ℚ :=
  if h * w = 0 then Except.error PyErr.zeroDivisionError
  else Except.ok ((countNonZero h w m : ℚ) / ((h * w : ℕ) : ℚ) * 100)

/-- The red highlight layer value of a mask cell (app.py lines 100-103):
BGR red where the mask is nonzero, black elsewhere. -/
def overlayPix (mv : ℕ) : Pix := if mv = 0 then (0, 0, 0) else (0, 0, 255)

/-- One channel of cv2.addWeighted(highlight, 0.7, overlay, 0.3, 0)
(app.py line 104): round to nearest of 0.7 a + 0.3 o, saturated to 255. -/
def addW (a o : ℕ) : ℕ := min (pyRound ((7 * a + 3 * o : ℚ) / 10)).toNat 255

/-- The overlay visualisation of _compute_diff (app.py lines 98-104): the
after image blended at weight 0.7 with the red-where-changed layer at 0.3. -/
def renderVis (after : Img) (m : ℕ → ℕ → ℕ) : Img :=
  ⟨after.height, after.width, fun i j =>
    (addW (after.pix i j).1 (overlayPix (m i j)).1,
     addW (after.pix i j).2.1 (overlayPix (m i j)).2.1,
     addW (after.pix i j).2.2 (overlayPix (m i j)).2.2)⟩

/-- Overlap length of the unit source interval [i, i+1) with the footprint
[I s, (I+1) s) of target index I at scale s = n / N, the weight of source
row or column i in exact area-averaging interpolation. -/
def ov (n N : ℕ) (I i : ℕ) : ℚ :=
  max 0 (min ((i : ℚ) + 1) (((I : ℚ) + 1) * ((n : ℚ) / N)) -
    max (i : ℚ) ((I : ℚ) * ((n : ℚ) / N)))

/-- One channel of one target pixel of exact area-averaging interpolation:
the overlap-weighted average of the source channel over the footprint. -/
def interAreaVal (src : Img) (W H : ℕ) (c : Pix → ℕ) (I J : ℕ) : ℚ :=
  (∑ i in Finset.range src.height, ∑ j in Finset.range src.width,
    ov src.height H I i * ov src.width W J j * (c (src.pix i j) : ℚ)) *
    ((W : ℚ) * (H : ℚ)) / ((src.width : ℚ) * (src.height : ℚ))

/-- cv2.resize with INTER_AREA (app.py line 62), modelled as exact
area-averaging interpolation over the rationals with rounding to nearest:
each target pixel is the footprint-weighted average of the source pixels.
OpenCV computes this in fixed point and falls back to a bilinear-like path
when enlarging; the exact area average is the documented semantics of the
flag. -/
def interArea (src : Img) (W H : ℕ) : Img :=
  ⟨H, W, fun I J =>
    ((pyRound (interAreaVal src W H (fun p => p.1) I J)).toNat,
     (pyRound (interAreaVal src W H (fun p => p.2.1) I J)).toNat,
     (pyRound (interAreaVal src W H (fun p => p.2.2) I J)).toNat)⟩

/-- _ensure_same_size (app.py lines 60-63): if the two images share their
height and width they are returned as given, otherwise the second is resized
to the dimensions of the first with INTER_AREA. -/
def reconcile (a b : Img) : Img × Img :=
  if a.height = b.height ∧ a.width = b.width then (a, b)
  else (a, interArea b a.width a.height)

lemma pyRound_intCast (n : ℤ) : pyRound ((n : ℚ)) = n := by
  unfold pyRound
  rw [Int.floor_intCast]
  rw [if_neg]
  · exact round_intCast n
  · simp

lemma pyRound_natCast (n : ℕ) : pyRound ((n : ℚ)) = n := by
  have h : ((n : ℚ)) = (((n : ℤ) : ℚ)) := by push_cast; rfl
  rw [h, pyRound_intCast]

lemma le_pyRound {n : ℤ} {q : ℚ} (hq : (n : ℚ) ≤ q) : n ≤ pyRound q := by
  have hf : n ≤ ⌊q⌋ := Int.le_floor.mpr hq
  unfold pyRound
  split
  · split
    · exact hf
    · omega
  · calc n ≤ ⌊q⌋ := hf
      _ ≤ ⌊q + 1 / 2⌋ := Int.floor_le_floor (by linarith)
      _ = round q := (round_eq q).symm

lemma applyRect_apply (h w : ℕ) (r : Rect) (m : ℕ → ℕ → ℕ) (i j : ℕ) :
    applyRect h w r m i j = if covers h w r i j then 0 else m i j := by
  by_cases hg : ry1 h r < ry2 h r ∧ rx1 w r < rx2 w r
  · simp only [applyRect, if_pos hg]
  · simp only [applyRect, if_neg hg]
    rw [if_neg]
    intro hc
    exact hg ⟨lt_of_le_of_lt hc.1 hc.2.1, lt_of_le_of_lt hc.2.2.1 hc.2.2.2⟩

lemma applyIgnoreRects_apply (h w : ℕ) (rects : List Rect) (m : ℕ → ℕ → ℕ)
    (i j : ℕ) :
    applyIgnoreRects h w rects m i j =
      if ∃ r ∈ rects, covers h w r i j then 0 else m i j := by
  induction rects generalizing m with
  | nil => simp [applyIgnoreRects]
  | cons r rs ih =>
    show applyIgnoreRects h w rs (applyRect h w r m) i j = _
    rw [ih, applyRect_apply]
    by_cases hr : covers h w r i j
    · by_cases hrs : ∃ r2 ∈ rs, covers h w r2 i j <;>
        simp [hr, hrs, List.exists_mem_cons_iff]
    · by_cases hrs : ∃ r2 ∈ rs, covers h w r2 i j <;>
        simp [hr, hrs, List.exists_mem_cons_iff]

/-- C5: the ignore-region editor is idempotent and order-independent:
applying the same region list twice equals applying it once, and applying
any permutation of the list yields the same mask. -/
theorem C5_apply_ignores_idem_perm (h w : ℕ) (rects rects2 : List Rect)
    (m : ℕ → ℕ → ℕ) (hp : rects.Perm rects2) :
    applyIgnoreRects h w rects (applyIgnoreRects h w rects m) =
      applyIgnoreRects h w rects m ∧
    applyIgnoreRects h w rects2 m = applyIgnoreRects h w rects m := by
  constructor
  · funext i j
    simp only [applyIgnoreRects_apply]
    by_cases he : ∃ r ∈ rects, covers h w r i j <;> simp [he]
  · funext i j
    simp only [applyIgnoreRects_apply]
    have hiff : (∃ r ∈ rects2, covers h w r i j) ↔ ∃ r ∈ rects, covers h w r i j := by
      constructor <;> rintro ⟨r, hr, hc⟩
      · exact ⟨r, hp.mem_iff.mpr hr, hc⟩
      · exact ⟨r, hp.mem_iff.mp hr, hc⟩
    rw [if_congr hiff rfl rfl]

/-- Witness for C5 at a concrete mask and a two-element region list and its
transposition. -/
theorem C5_apply_ignores_idem_perm_witness :
    ([Rect.mk 0 0 (1/2) 1, Rect.mk (1/4) (1/4) (1/2) (1/2)]).Perm
      [Rect.mk (1/4) (1/4) (1/2) (1/2), Rect.mk 0 0 (1/2) 1] ∧
    (applyIgnoreRects 4 4 [Rect.mk 0 0 (1/2) 1, Rect.mk (1/4) (1/4) (1/2) (1/2)]
        (applyIgnoreRects 4 4
          [Rect.mk 0 0 (1/2) 1, Rect.mk (1/4) (1/4) (1/2) (1/2)]
          (fun _ _ => 255)) =
      applyIgnoreRects 4 4 [Rect.mk 0 0 (1/2) 1, Rect.mk (1/4) (1/4) (1/2) (1/2)]
        (fun _ _ => 255) ∧
    applyIgnoreRects 4 4 [Rect.mk (1/4) (1/4) (1/2) (1/2), Rect.mk 0 0 (1/2) 1]
        (fun _ _ => 255) =
      applyIgnoreRects 4 4 [Rect.mk 0 0 (1/2) 1, Rect.mk (1/4) (1/4) (1/2) (1/2)]
        (fun _ _ => 255)) :=
  ⟨List.Perm.swap _ _ _,
    C5_apply_ignores_idem_perm 4 4 _ _ (fun _ _ => 255) (List.Perm.swap _ _ _)⟩

/-- The claim that a region lying fully outside the mask leaves every cell
unchanged is false: on a 2-by-2 all-changed mask, the region with normalized
x = 3/2 (entirely beyond the right edge) still zeroes the cell in row 0,
column 1, because the left column is clamped to width - 1 while the right
column is clamped to width. -/
theorem C2_outside_region_cex :
    applyIgnoreRects 2 2 [Rect.mk (3/2) 0 (1/2) 1] (fun _ _ => 255) 0 1 = 0 ∧
    (255 : ℕ) ≠ 0 := by
  constructor
  · have e1 : rx1 2 (Rect.mk (3/2) 0 (1/2) 1) = 1 := by
      unfold rx1
      rw [show ((Rect.mk (3/2) 0 (1/2) 1).x * (2 : ℕ) : ℚ) = ((3 : ℤ) : ℚ) by norm_num,
        pyRound_intCast]
      decide
    have e2 : rx2 2 (Rect.mk (3/2) 0 (1/2) 1) = 2 := by
      unfold rx2
      rw [show (((Rect.mk (3/2) 0 (1/2) 1).x + (Rect.mk (3/2) 0 (1/2) 1).w) * (2 : ℕ) : ℚ)
          = ((4 : ℤ) : ℚ) by norm_num, pyRound_intCast]
      decide
    have e3 : ry1 2 (Rect.mk (3/2) 0 (1/2) 1) = 0 := by
      unfold ry1
      rw [show ((Rect.mk (3/2) 0 (1/2) 1).y * (2 : ℕ) : ℚ) = ((0 : ℤ) : ℚ) by norm_num,
        pyRound_intCast]
      decide
    have e4 : ry2 2 (Rect.mk (3/2) 0 (1/2) 1) = 2 := by
      unfold ry2
      rw [show (((Rect.mk (3/2) 0 (1/2) 1).y + (Rect.mk (3/2) 0 (1/2) 1).h) * (2 : ℕ) : ℚ)
          = ((2 : ℤ) : ℚ) by norm_num, pyRound_intCast]
      decide
    rw [show applyIgnoreRects 2 2 [Rect.mk (3/2) 0 (1/2) 1] (fun _ _ => 255) =
        applyRect 2 2 (Rect.mk (3/2) 0 (1/2) 1) (fun _ _ => 255) from rfl,
      applyRect_apply, if_pos]
    unfold covers
    rw [e1, e2, e3, e4]
    refine ⟨by decide, by decide, by decide, by decide⟩
  · decide

/-- C2 as amended: the editor clamps the left column of a region to
[0, width - 1] and the right column to [0, width] (rows analogously), and a
cell is suppressed exactly when it lies in the clamped rectangle of the
region; consequently a region with normalized x at least 1 and nonnegative
normalized width on a mask of width at least 1 clamps to the last pixel
column (left column width - 1, right column width) instead of having no
effect. -/
theorem C2_clamping (h w : ℕ) (r : Rect) (m : ℕ → ℕ → ℕ) (i j : ℕ) :
    (applyIgnoreRects h w [r] m i j = if covers h w r i j then 0 else m i j) ∧
    (0 ≤ rx1 w r ∧ rx1 w r ≤ max 0 ((w : ℤ) - 1) ∧ 0 ≤ rx2 w r ∧ rx2 w r ≤ w) ∧
    (1 ≤ r.x → 0 ≤ r.w → 1 ≤ w → rx1 w r = (w : ℤ) - 1 ∧ rx2 w r = (w : ℤ)) := by
  refine ⟨applyRect_apply h w r m i j, ?_, ?_⟩
  · unfold rx1 rx2
    constructor
    · exact le_max_left 0 _
    constructor
    · exact max_le_max (le_refl 0) (min_le_left _ _)
    constructor
    · exact le_max_left 0 _
    · exact max_le (by positivity) (min_le_left _ _)
  · intro hx hw hww
    have hw1 : (1 : ℚ) ≤ w := by exact_mod_cast hww
    have hp1 : (w : ℤ) ≤ pyRound (r.x * w) := by
      apply le_pyRound
      push_cast
      nlinarith
    have hp2 : (w : ℤ) ≤ pyRound ((r.x + r.w) * w) := by
      apply le_pyRound
      push_cast
      nlinarith
    unfold rx1 rx2
    constructor
    · rw [min_eq_left (by omega), max_eq_right (by omega)]
    · rw [min_eq_left hp2, max_eq_right (by omega)]

/-- Witness for C2 as amended: the region with normalized x = 3/2 on a
width-2 mask clamps to left column 1 and right column 2. -/
theorem C2_clamping_witness :
    (1 : ℚ) ≤ (Rect.mk (3/2) 0 (1/2) 1).x ∧
    rx1 2 (Rect.mk (3/2) 0 (1/2) 1) = (2 : ℤ) - 1 ∧
    rx2 2 (Rect.mk (3/2) 0 (1/2) 1) = (2 : ℤ) := by
  refine ⟨by norm_num, ?_⟩
  have h := (C2_clamping 2 2 (Rect.mk (3/2) 0 (1/2) 1) (fun _ _ => 255) 0 1).2.2
    (by norm_num) (by norm_num) (by norm_num)
  exact_mod_cast h

/-- C6: on a 100-by-100 mask, the region with normalized coordinates
x = 1/2, y = 1/2, w = 1, h = 1 is clamped to pixels [50,100) in each axis:
exactly the in-bounds cells with row and column at least 50 are set to 0 and
every other cell keeps its value. -/
theorem C6_region_clamp (m : ℕ → ℕ → ℕ) (i j : ℕ) (hi : i < 100) (hj : j < 100) :
    applyIgnoreRects 100 100 [Rect.mk (1/2) (1/2) 1 1] m i j =
      if 50 ≤ i ∧ 50 ≤ j then 0 else m i j := by
  have e1 : rx1 100 (Rect.mk (1/2) (1/2) 1 1) = 50 := by
    unfold rx1
    rw [show ((Rect.mk (1/2) (1/2) 1 1).x * (100 : ℕ) : ℚ) = ((50 : ℤ) : ℚ) by norm_num,
      pyRound_intCast]
    decide
  have e2 : rx2 100 (Rect.mk (1/2) (1/2) 1 1) = 100 := by
    unfold rx2
    rw [show (((Rect.mk (1/2) (1/2) 1 1).x + (Rect.mk (1/2) (1/2) 1 1).w) * (100 : ℕ) : ℚ)
        = ((150 : ℤ) : ℚ) by norm_num, pyRound_intCast]
    decide
  have e3 : ry1 100 (Rect.mk (1/2) (1/2) 1 1) = 50 := by
    unfold ry1
    rw [show ((Rect.mk (1/2) (1/2) 1 1).y * (100 : ℕ) : ℚ) = ((50 : ℤ) : ℚ) by norm_num,
      pyRound_intCast]
    decide
  have e4 : ry2 100 (Rect.mk (1/2) (1/2) 1 1) = 100 := by
    unfold ry2
    rw [show (((Rect.mk (1/2) (1/2) 1 1).y + (Rect.mk (1/2) (1/2) 1 1).h) * (100 : ℕ) : ℚ)
        = ((150 : ℤ) : ℚ) by norm_num, pyRound_intCast]
    decide
  rw [show applyIgnoreRects 100 100 [Rect.mk (1/2) (1/2) 1 1] m =
      applyRect 100 100 (Rect.mk (1/2) (1/2) 1 1) m from rfl, applyRect_apply]
  have hiff : covers 100 100 (Rect.mk (1/2) (1/2) 1 1) i j ↔ (50 ≤ i ∧ 50 ≤ j) := by
    unfold covers
    rw [e1, e2, e3, e4]
    omega
  rw [if_congr hiff rfl rfl]

/-- Witness for C6 at a concrete mask and cell. -/
theorem C6_region_clamp_witness :
    60 < 100 ∧ 70 < 100 ∧
    applyIgnoreRects 100 100 [Rect.mk (1/2) (1/2) 1 1] (fun a b => a + b) 60 70 =
      if 50 ≤ 60 ∧ 50 ≤ 70 then 0 else (fun a b => a + b) 60 70 :=
  ⟨by decide, by decide,
    C6_region_clamp (fun a b => a + b) 60 70 (by decide) (by decide)⟩

lemma countNonZero_le (h w : ℕ) (m : ℕ → ℕ → ℕ) : countNonZero h w m ≤ h * w := by
  unfold countNonZero
  calc (∑ i in Finset.range h, ∑ j in Finset.range w, if m i j = 0 then 0 else 1)
      ≤ ∑ _i in Finset.range h, ∑ _j in Finset.range w, 1 := by
        refine Finset.sum_le_sum fun i _ => Finset.sum_le_sum fun j _ => ?_
        split <;> omega
    _ = h * w := by simp [mul_comm]

/-- The claim that a zero-cell mask makes the scorer fail with an
InvalidState error is false on the code: the division is attempted and the
failure is a ZeroDivisionError. -/
theorem C3_zero_area_cex :
    scoreE 0 3 (fun _ _ => 0) = Except.error PyErr.zeroDivisionError ∧
    PyErr.zeroDivisionError ≠ PyErr.invalidState := by
  constructor
  · rfl
  · intro hc
    cases hc

/-- C3 as amended: the scorer has no defensive guard; on a mask with zero
total cells the division is attempted and fails with a ZeroDivisionError
(not an InvalidState error), and for every mask with at least one cell it
returns 100 times the changed-cell count over the total cell count, a value
in [0, 100]. -/
theorem C3_score_guard (h w : ℕ) (m : ℕ → ℕ → ℕ) :
    (h * w = 0 → scoreE h w m = Except.error PyErr.zeroDivisionError) ∧
    (0 < h * w →
      scoreE h w m =
        Except.ok ((countNonZero h w m : ℚ) / ((h * w : ℕ) : ℚ) * 100) ∧
      (0 : ℚ) ≤ (countNonZero h w m : ℚ) / ((h * w : ℕ) : ℚ) * 100 ∧
      (countNonZero h w m : ℚ) / ((h * w : ℕ) : ℚ) * 100 ≤ 100) := by
  constructor
  · intro hz
    simp [scoreE, hz]
  · intro hpos
    have hne : h * w ≠ 0 := Nat.pos_iff_ne_zero.mp hpos
    have hq : (0 : ℚ) < ((h * w : ℕ) : ℚ) := by exact_mod_cast hpos
    refine ⟨by simp [scoreE, hne], ?_, ?_⟩
    · positivity
    · have hle : ((countNonZero h w m : ℕ) : ℚ) ≤ ((h * w : ℕ) : ℚ) := by
        exact_mod_cast countNonZero_le h w m
      have hdiv : (countNonZero h w m : ℚ) / ((h * w : ℕ) : ℚ) ≤ 1 :=
        (div_le_one hq).mpr hle
      calc (countNonZero h w m : ℚ) / ((h * w : ℕ) : ℚ) * 100
          ≤ 1 * 100 := by
            exact mul_le_mul_of_nonneg_right hdiv (by norm_num)
        _ = 100 := by norm_num

/-- Witness for C3 as amended at a 1-by-1 all-changed mask. -/
theorem C3_score_guard_witness :
    0 < 1 * 1 ∧
    (scoreE 1 1 (fun _ _ => 255) =
        Except.ok ((countNonZero 1 1 (fun _ _ => 255) : ℚ) / ((1 * 1 : ℕ) : ℚ) * 100) ∧
      (0 : ℚ) ≤ (countNonZero 1 1 (fun _ _ => 255) : ℚ) / ((1 * 1 : ℕ) : ℚ) * 100 ∧
      (countNonZero 1 1 (fun _ _ => 255) : ℚ) / ((1 * 1 : ℕ) : ℚ) * 100 ≤ 100) :=
  ⟨by decide, (C3_score_guard 1 1 (fun _ _ => 255)).2 (by decide)⟩

lemma absd_self (x : ℕ) : absd x x = 0 := by
  unfold absd
  omega

lemma grayOf_absdiff_self (p : Pix) : grayOf (absdiffPix p p) = 0 := by
  unfold absdiffPix grayOf
  rw [absd_self, absd_self, absd_self]
  rfl

lemma diffMask_self (img : Img) (t : ℕ) (i j : ℕ) : diffMask img img t i j = 0 := by
  unfold diffMask
  rw [grayOf_absdiff_self]
  simp

lemma foldr_min_le_of_mem {l : List ℕ} {x init : ℕ} (hx : x ∈ l) :
    l.foldr min init ≤ x := by
  induction l with
  | nil => cases hx
  | cons y ys ih =>
    rcases List.mem_cons.mp hx with h1 | h2
    · subst h1
      exact min_le_left _ _
    · exact le_trans (min_le_right _ _) (ih h2)

lemma foldr_max_zero {l : List ℕ} (hz : ∀ x ∈ l, x = 0) : l.foldr max 0 = 0 := by
  induction l with
  | nil => rfl
  | cons y ys ih =>
    have hy := hz y (List.mem_cons_self y ys)
    have : ys.foldr max 0 = 0 := ih fun x hx => hz x (List.mem_cons_of_mem y hx)
    simp [hy, this]

lemma self_mem_nbhd (n i : ℕ) : i ∈ nbhd n i := by
  unfold nbhd
  simp

lemma self_mem_cellList (h w : ℕ) (m : ℕ → ℕ → ℕ) (i j : ℕ) :
    m i j ∈ cellList h w m i j := by
  unfold cellList
  rw [List.mem_flatten]
  refine ⟨(nbhd w j).map (fun b => m i b), ?_, ?_⟩
  · exact List.mem_map_of_mem _ (self_mem_nbhd h i)
  · exact List.mem_map_of_mem _ (self_mem_nbhd w j)

lemma mem_cellList {h w : ℕ} {m : ℕ → ℕ → ℕ} {i j x : ℕ}
    (hx : x ∈ cellList h w m i j) : ∃ a b, x = m a b := by
  unfold cellList at hx
  rw [List.mem_flatten] at hx
  obtain ⟨l, hl, hxl⟩ := hx
  obtain ⟨a, _, rfl⟩ := List.mem_map.mp hl
  obtain ⟨b, _, rfl⟩ := List.mem_map.mp hxl
  exact ⟨a, b, rfl⟩

lemma erode_zero {h w : ℕ} {m : ℕ → ℕ → ℕ} (hm : ∀ i j, m i j = 0) (i j : ℕ) :
    erode h w m i j = 0 := by
  have hle : erode h w m i j ≤ m i j := foldr_min_le_of_mem (self_mem_cellList h w m i j)
  rw [hm i j] at hle
  omega

lemma dilate_zero {h w : ℕ} {m : ℕ → ℕ → ℕ} (hm : ∀ i j, m i j = 0) (i j : ℕ) :
    dilate h w m i j = 0 := by
  unfold dilate
  refine foldr_max_zero fun x hx => ?_
  obtain ⟨a, b, rfl⟩ := mem_cellList hx
  exact hm a b

lemma opening_zero {h w : ℕ} {m : ℕ → ℕ → ℕ} (hm : ∀ i j, m i j = 0) (i j : ℕ) :
    opening h w m i j = 0 :=
  dilate_zero (fun a b => erode_zero hm a b) i j

lemma countNonZero_zero {h w : ℕ} {m : ℕ → ℕ → ℕ}
    (hm : ∀ i j, i < h → j < w → m i j = 0) : countNonZero h w m = 0 := by
  unfold countNonZero
  refine Finset.sum_eq_zero fun i hi => Finset.sum_eq_zero fun j hj => ?_
  rw [hm i j (Finset.mem_range.mp hi) (Finset.mem_range.mp hj)]
  simp

lemma scoreE_zero {h w : ℕ} {m : ℕ → ℕ → ℕ} (hh : 0 < h) (hw : 0 < w)
    (hm : ∀ i j, i < h → j < w → m i j = 0) : scoreE h w m = Except.ok 0 := by
  have hne : h * w ≠ 0 := by positivity
  rw [scoreE, if_neg hne, countNonZero_zero hm]
  norm_num

/-- C4: comparing an image against an identical copy of itself at any
threshold yields, after difference extraction and noise filtering, a mask
with zero changed cells, and the score computed from that mask is 0. -/
theorem C4_identical_images (img : Img) (t : ℕ) (hh : 0 < img.height)
    (hw : 0 < img.width) (ht : t ≤ 255) :
    countNonZero img.height img.width
      (opening img.height img.width (diffMask img img t)) = 0 ∧
    scoreE img.height img.width
      (opening img.height img.width (diffMask img img t)) = Except.ok 0 := by
  have hz : ∀ i j, opening img.height img.width (diffMask img img t) i j = 0 :=
    opening_zero fun i j => diffMask_self img t i j
  exact ⟨countNonZero_zero fun i j _ _ => hz i j,
    scoreE_zero hh hw fun i j _ _ => hz i j⟩

/-- A concrete image used by witnesses. -/
def imgA : Img := ⟨1, 1, fun _ _ => (5, 7, 9)⟩

/-- Witness for C4 at a concrete 1-by-1 image and threshold 3. -/
theorem C4_identical_images_witness :
    0 < imgA.height ∧ 0 < imgA.width ∧ 3 ≤ 255 ∧
    (countNonZero imgA.height imgA.width
        (opening imgA.height imgA.width (diffMask imgA imgA 3)) = 0 ∧
      scoreE imgA.height imgA.width
        (opening imgA.height imgA.width (diffMask imgA imgA 3)) = Except.ok 0) :=
  ⟨by decide, by decide, by decide,
    C4_identical_images imgA 3 (by decide) (by decide) (by decide)⟩

/-- C8: the difference extractor marks a cell as changed (value 255) exactly
when the luma-weighted gray magnitude of the channel-wise absolute
difference strictly exceeds the threshold, and as unchanged (value 0)
exactly when the magnitude is at most the threshold. -/
theorem C8_threshold_strict (before after : Img) (t : ℕ) (i j : ℕ) :
    (diffMask before after t i j = 255 ↔
      t < grayOf (absdiffPix (before.pix i j) (after.pix i j))) ∧
    (diffMask before after t i j = 0 ↔
      grayOf (absdiffPix (before.pix i j) (after.pix i j)) ≤ t) := by
  unfold diffMask
  by_cases hlt : t < grayOf (absdiffPix (before.pix i j) (after.pix i j)) <;>
    constructor <;> simp [hlt] <;> omega

lemma binary_min {a b : ℕ} (ha : a = 0 ∨ a = 255) (hb : b = 0 ∨ b = 255) :
    min a b = 0 ∨ min a b = 255 := by
  rcases ha with h | h <;> rcases hb with h2 | h2 <;> simp [h, h2]

lemma binary_max {a b : ℕ} (ha : a = 0 ∨ a = 255) (hb : b = 0 ∨ b = 255) :
    max a b = 0 ∨ max a b = 255 := by
  rcases ha with h | h <;> rcases hb with h2 | h2 <;> simp [h, h2]

lemma foldr_binary {f : ℕ → ℕ → ℕ}
    (hf : ∀ a b, (a = 0 ∨ a = 255) → (b = 0 ∨ b = 255) → (f a b = 0 ∨ f a b = 255))
    {init : ℕ} (hi : init = 0 ∨ init = 255) :
    ∀ l : List ℕ, (∀ x ∈ l, x = 0 ∨ x = 255) →
      (l.foldr f init = 0 ∨ l.foldr f init = 255) := by
  intro l
  induction l with
  | nil => intro _; exact hi
  | cons y ys ih =>
    intro hl
    exact hf y (ys.foldr f init) (hl y (List.mem_cons_self y ys))
      (ih fun x hx => hl x (List.mem_cons_of_mem y hx))

lemma diffMask_binary (before after : Img) (t : ℕ) (i j : ℕ) :
    diffMask before after t i j = 0 ∨ diffMask before after t i j = 255 := by
  unfold diffMask
  split <;> simp

lemma erode_binary {h w : ℕ} {m : ℕ → ℕ → ℕ}
    (hm : ∀ i j, m i j = 0 ∨ m i j = 255) (i j : ℕ) :
    erode h w m i j = 0 ∨ erode h w m i j = 255 := by
  refine foldr_binary (fun a b => binary_min) (Or.inr rfl) _ fun x hx => ?_
  obtain ⟨a, b, rfl⟩ := mem_cellList hx
  exact hm a b

lemma dilate_binary {h w : ℕ} {m : ℕ → ℕ → ℕ}
    (hm : ∀ i j, m i j = 0 ∨ m i j = 255) (i j : ℕ) :
    dilate h w m i j = 0 ∨ dilate h w m i j = 255 := by
  refine foldr_binary (fun a b => binary_max) (Or.inl rfl) _ fun x hx => ?_
  obtain ⟨a, b, rfl⟩ := mem_cellList hx
  exact hm a b

lemma opening_binary {h w : ℕ} {m : ℕ → ℕ → ℕ}
    (hm : ∀ i j, m i j = 0 ∨ m i j = 255) (i j : ℕ) :
    opening h w m i j = 0 ∨ opening h w m i j = 255 :=
  dilate_binary (fun a b => erode_binary hm a b) i j

lemma applyIgnoreRects_binary {h w : ℕ} {rects : List Rect} {m : ℕ → ℕ → ℕ}
    (hm : ∀ i j, m i j = 0 ∨ m i j = 255) (i j : ℕ) :
    applyIgnoreRects h w rects m i j = 0 ∨ applyIgnoreRects h w rects m i j = 255 := by
  rw [applyIgnoreRects_apply]
  split
  · exact Or.inl rfl
  · exact hm i j

/-- C10: every cell of the mask is binary, holding 0 or 255, at each stage
of the pipeline: after thresholding, after morphological opening, and after
ignore-region application. -/
theorem C10_mask_binary (before after : Img) (t : ℕ) (rects : List Rect)
    (i j : ℕ) :
    (diffMask before after t i j = 0 ∨ diffMask before after t i j = 255) ∧
    (opening before.height before.width (diffMask before after t) i j = 0 ∨
      opening before.height before.width (diffMask before after t) i j = 255) ∧
    (pipelineMask before after t rects i j = 0 ∨
      pipelineMask before after t rects i j = 255) := by
  refine ⟨diffMask_binary before after t i j, ?_, ?_⟩
  · exact opening_binary (diffMask_binary before after t) i j
  · exact applyIgnoreRects_binary (opening_binary (diffMask_binary before after t)) i j

lemma rx1_full (w : ℕ) (hw : 0 < w) : rx1 w (Rect.mk 0 0 1 1) = 0 := by
  unfold rx1
  rw [show ((Rect.mk 0 0 1 1).x * (w : ℚ)) = (((0 : ℤ) : ℚ)) by simp, pyRound_intCast]
  omega

lemma rx2_full (w : ℕ) : rx2 w (Rect.mk 0 0 1 1) = w := by
  unfold rx2
  rw [show (((Rect.mk 0 0 1 1).x + (Rect.mk 0 0 1 1).w) * (w : ℚ)) = ((w : ℕ) : ℚ) by
    simp, pyRound_natCast]
  omega

lemma ry1_full (h : ℕ) (hh : 0 < h) : ry1 h (Rect.mk 0 0 1 1) = 0 := by
  unfold ry1
  rw [show ((Rect.mk 0 0 1 1).y * (h : ℚ)) = (((0 : ℤ) : ℚ)) by simp, pyRound_intCast]
  omega

lemma ry2_full (h : ℕ) : ry2 h (Rect.mk 0 0 1 1) = h := by
  unfold ry2
  rw [show (((Rect.mk 0 0 1 1).y + (Rect.mk 0 0 1 1).h) * (h : ℚ)) = ((h : ℕ) : ℚ) by
    simp, pyRound_natCast]
  omega

lemma full_covers {h w : ℕ} (hh : 0 < h) (hw : 0 < w) {i j : ℕ} (hi : i < h)
    (hj : j < w) : covers h w (Rect.mk 0 0 1 1) i j := by
  unfold covers
  rw [rx1_full w hw, rx2_full w, ry1_full h hh, ry2_full h]
  omega

/-- C9: with the single ignore region covering the whole frame, the final
pipeline mask has zero changed cells and the score is 0, for every pair of
same-sized images and every threshold. -/
theorem C9_full_frame_ignore (before after : Img) (t : ℕ)
    (hsz : before.height = after.height ∧ before.width = after.width)
    (hh : 0 < before.height) (hw : 0 < before.width) (ht : t ≤ 255) :
    countNonZero before.height before.width
      (pipelineMask before after t [Rect.mk 0 0 1 1]) = 0 ∧
    scoreE before.height before.width
      (pipelineMask before after t [Rect.mk 0 0 1 1]) = Except.ok 0 := by
  have hz : ∀ i j, i < before.height → j < before.width →
      pipelineMask before after t [Rect.mk 0 0 1 1] i j = 0 := by
    intro i j hi hj
    unfold pipelineMask
    rw [applyIgnoreRects_apply, if_pos]
    exact ⟨Rect.mk 0 0 1 1, List.mem_singleton_self _, full_covers hh hw hi hj⟩
  exact ⟨countNonZero_zero hz, scoreE_zero hh hw hz⟩

/-- Concrete images used by the C9 witness. -/
def imgBlack : Img := ⟨2, 2, fun _ _ => (0, 0, 0)⟩

/-- Concrete images used by the C9 witness. -/
def imgWhite : Img := ⟨2, 2, fun _ _ => (255, 255, 255)⟩

/-- Witness for C9 at two concrete 2-by-2 images and threshold 10. -/
theorem C9_full_frame_ignore_witness :
    (imgBlack.height = imgWhite.height ∧ imgBlack.width = imgWhite.width) ∧
    0 < imgBlack.height ∧ 0 < imgBlack.width ∧ 10 ≤ 255 ∧
    (countNonZero imgBlack.height imgBlack.width
        (pipelineMask imgBlack imgWhite 10 [Rect.mk 0 0 1 1]) = 0 ∧
      scoreE imgBlack.height imgBlack.width
        (pipelineMask imgBlack imgWhite 10 [Rect.mk 0 0 1 1]) = Except.ok 0) :=
  ⟨⟨rfl, rfl⟩, by decide, by decide, by decide,
    C9_full_frame_ignore imgBlack imgWhite 10 ⟨rfl, rfl⟩ (by decide) (by decide)
      (by decide)⟩

/-- C7: the size reconciler returns both images unchanged when their
dimensions already agree; otherwise it returns the first untouched and the
second resized by area-averaging interpolation to exactly the dimensions of
the first. -/
theorem C7_reconcile_sizes (a b : Img) :
    ((a.height = b.height ∧ a.width = b.width) → reconcile a b = (a, b)) ∧
    (reconcile a b).1 = a ∧
    (¬(a.height = b.height ∧ a.width = b.width) →
      (reconcile a b).2 = interArea b a.width a.height ∧
      (reconcile a b).2.height = a.height ∧ (reconcile a b).2.width = a.width) := by
  by_cases hc : a.height = b.height ∧ a.width = b.width
  · unfold reconcile
    rw [if_pos hc]
    exact ⟨fun _ => rfl, rfl, fun hn => absurd hc hn⟩
  · unfold reconcile
    rw [if_neg hc]
    exact ⟨fun hy => absurd hy hc, rfl, fun _ => ⟨rfl, rfl, rfl⟩⟩

/-- Concrete image used by the C7 witness. -/
def imgSmall : Img := ⟨1, 1, fun _ _ => (1, 2, 3)⟩

/-- Concrete image used by the C7 witness. -/
def imgBig : Img := ⟨2, 3, fun _ _ => (4, 5, 6)⟩

/-- Witness for C7 at a 1-by-1 and a 2-by-3 image. -/
theorem C7_reconcile_sizes_witness :
    ¬(imgSmall.height = imgBig.height ∧ imgSmall.width = imgBig.width) ∧
    ((reconcile imgSmall imgBig).2 = interArea imgBig imgSmall.width imgSmall.height ∧
      (reconcile imgSmall imgBig).2.height = imgSmall.height ∧
      (reconcile imgSmall imgBig).2.width = imgSmall.width) :=
  ⟨by decide, (C7_reconcile_sizes imgSmall imgBig).2.2 (by decide)⟩

lemma addW_ten_zero : addW 10 0 = 7 := by
  unfold addW
  rw [show ((7 * ((10 : ℕ) : ℚ) + 3 * ((0 : ℕ) : ℚ)) / 10) = ((7 : ℤ) : ℚ) by
    norm_num, pyRound_intCast]
  rfl

/-- Concrete image used to exhibit the overlay defect. -/
def imgTen : Img := ⟨1, 1, fun _ _ => (10, 10, 10)⟩

/-- C1 failing input: on an image whose pixel is BGR (10, 10, 10) and an
all-unchanged mask, the rendered overlay holds (7, 7, 7) at that pixel, not
the original (10, 10, 10): addWeighted is applied uniformly, so unchanged
pixels come out at 0.7 of their original intensity instead of full
intensity. -/
theorem C1_overlay_unchanged_bug :
    (renderVis imgTen (fun _ _ => 0)).pix 0 0 = (7, 7, 7) ∧
    imgTen.pix 0 0 = (10, 10, 10) ∧
    (renderVis imgTen (fun _ _ => 0)).pix 0 0 ≠ imgTen.pix 0 0 := by
  have h1 : (renderVis imgTen (fun _ _ => 0)).pix 0 0 = (addW 10 0, addW 10 0, addW 10 0) :=
    rfl
  refine ⟨?_, rfl, ?_⟩
  · rw [h1, addW_ten_zero]
  · rw [h1, addW_ten_zero]
    decide

end VCD
